import Mathlib

/-!
Verification of the nucleus-counting pipeline described by the repository
specification (blur, threshold, contour extraction, area filtering), as a
shallow embedding.  The notebook drives the pipeline through vision-library
primitives (GaussianBlur, threshold, adaptiveThreshold, findContours,
contourArea, drawContours); those primitives are modelled here from the
specification text, while the glue that appears verbatim in the notebook
(the area filter list comprehension, the copy-then-mutate visualisation
cells) is embedded directly.
-/

/-- An intensity array: a 2-D grid of intensities, height x width.
Matches the Intensity Array data model (one value per pixel position).
Out-of-range lookups are total but irrelevant: all facts proved below
quantify only over positions below the stated dimensions. -/
structure Img where
  h : Nat
  w : Nat
  pix : Nat → Nat → Nat

/-- The invariant of an intensity array: every in-range value fits one
unsigned byte. -/
def Img.wf (a : Img) : Prop := ∀ i j, i < a.h → j < a.w → a.pix i j ≤ 255

/-- A pixel position, row then column. -/
abbrev Pt := Nat × Nat

/-- Row-major enumeration of all in-range positions of an image. -/
def allPts (a : Img) : List Pt :=
  (List.range a.h).flatMap fun i => (List.range a.w).map fun j => (i, j)

/-- Modelled from the spec: the global Thresholding Stage
(cv2.threshold with THRESH_BINARY, not implemented in the repository).
Each output pixel is 255 when the source intensity strictly exceeds the
threshold, else 0. -/
def threshold (src : Img) (t : ℤ) : Img :=
  ⟨src.h, src.w, fun i j => if (src.pix i j : ℤ) > t then 255 else 0⟩

/-- Clamp an integer index into [0, n-1]; this is the replicate border
extension rule used for neighbourhood lookups near the array edge. -/
def clampIdx (n : Nat) (i : ℤ) : Nat := (min (max i 0) ((n : ℤ) - 1)).toNat

/-- Pixel lookup with replicated border. -/
def borderPix (a : Img) (i j : ℤ) : Nat :=
  a.pix (clampIdx a.h i) (clampIdx a.w j)

/-- The intensity sum of the blockSize x blockSize neighbourhood centred
at (i, j), with replicated border. -/
def blockSum (src : Img) (blockSize : Nat) (i j : Nat) : Nat :=
  let r : Nat := (blockSize - 1) / 2
  (((List.range blockSize).flatMap fun a =>
    (List.range blockSize).map fun b =>
      borderPix src ((i : ℤ) + a - r) ((j : ℤ) + b - r)).sum)

/-- Modelled from the spec: the adaptive Thresholding Stage
(cv2.adaptiveThreshold with ADAPTIVE_THRESH_MEAN_C, not implemented in
the repository).  The per-pixel threshold is the mean intensity of the
blockSize x blockSize neighbourhood (replicated border) minus the
constant offset c; the pixel is foreground (255) when its own intensity
strictly exceeds that local threshold.  The comparison
pix > sum / n - c is evaluated exactly, multiplied out over the
numerator and denominator of c (theorem adaptiveThreshold_pix_iff
states the equivalence with the rational inequality). -/
def adaptiveThreshold (src : Img) (blockSize : Nat) (c : ℚ) : Img :=
  ⟨src.h, src.w, fun i j =>
    let n : ℤ := (blockSize * blockSize : ℕ)
    let nsum : ℤ := blockSum src blockSize i j
    if (src.pix i j : ℤ) * n * c.den > nsum * c.den - c.num * n then 255 else 0⟩

/-- One row of binomial weights, the standard discrete approximation of a
Gaussian kernel of the given odd size. -/
def gaussWeights (k : Nat) : List ℕ := (List.range k).map (Nat.choose (k - 1))

/-- Modelled from the spec: the Smoothing Stage (cv2.GaussianBlur, not
implemented in the repository).  Each output pixel is the weighted
average of its k x k neighbourhood, Gaussian-weighted (binomial weights),
with replicated border, rounded to the nearest integer (ties upward):
(2 s + t) / (2 t) in integer division is the rounding of s / t.  Kernel
size 1 is a no-op. -/
def GaussianBlur (src : Img) (k : Nat) : Img :=
  ⟨src.h, src.w, fun i j =>
    let r : Nat := (k - 1) / 2
    let ws := gaussWeights k
    let total : Nat := ws.sum ^ 2
    let s : Nat :=
      ((List.range k).flatMap fun a =>
        (List.range k).map fun b =>
          ws.getD a 0 * ws.getD b 0 *
            borderPix src ((i : ℤ) + a - r) ((j : ℤ) + b - r)).sum
    (2 * s + total) / (2 * total)⟩

/-- Twice the signed area of the closed polygon through the points,
accumulated edge by edge; the final edge closes back to the first point. -/
def shoelaceAux (first : ℤ × ℤ) : List (ℤ × ℤ) → ℤ
  | [] => 0
  | [p] => p.1 * first.2 - first.1 * p.2
  | p :: q :: rest => (p.1 * q.2 - q.1 * p.2) + shoelaceAux first (q :: rest)

/-- Twice the signed area of a closed polygon (shoelace formula over the
vertex sequence). -/
def shoelace : List (ℤ × ℤ) → ℤ
  | [] => 0
  | p :: rest => shoelaceAux p (p :: rest)

/-- Half of an integer, as an exact rational in lowest terms, built as a
literal numerator-denominator pair so that it evaluates by reduction. -/
def halfOfInt (s : ℤ) : ℚ :=
  if h : s % 2 = 0 then ((s / 2 : ℤ) : ℚ)
  else
    ⟨s, 2, by decide, by
      have hodd : Odd s.natAbs := by
        rw [Nat.odd_iff]
        omega
      exact Nat.coprime_two_right.mpr hodd⟩

/-- halfOfInt agrees with division by two in ℚ. -/
theorem halfOfInt_eq (s : ℤ) : halfOfInt s = (s : ℚ) / 2 := by
  unfold halfOfInt
  split
  · rename_i h
    obtain ⟨k, hk⟩ := Int.dvd_of_emod_eq_zero h
    subst hk
    push_cast [Int.mul_ediv_cancel_left _ (by norm_num : (2 : ℤ) ≠ 0)]
    ring
  · rename_i h
    rw [eq_div_iff (by norm_num : (2 : ℚ) ≠ 0)]
    have hden : ((⟨s, 2, by decide, by
        have hodd : Odd s.natAbs := by
          rw [Nat.odd_iff]
          omega
        exact Nat.coprime_two_right.mpr hodd⟩ : ℚ) : ℚ).den = 2 := rfl
    have := Rat.num_div_den (⟨s, 2, by decide, by
        have hodd : Odd s.natAbs := by
          rw [Nat.odd_iff]
          omega
        exact Nat.coprime_two_right.mpr hodd⟩ : ℚ)
    rw [← this]
    norm_num [hden]

/-- Modelled from the spec: cv2.contourArea — the enclosed area of a
contour, the absolute shoelace sum halved.  A contour with fewer than
three vertices yields area 0. -/
def contourArea (c : List (ℤ × ℤ)) : ℚ := halfOfInt |shoelace c|

/-- contourArea is the absolute shoelace sum divided by two. -/
theorem contourArea_eq (c : List (ℤ × ℤ)) :
    contourArea c = ((|shoelace c| : ℤ) : ℚ) / 2 := halfOfInt_eq _

/-- A blob record: the contour together with its computed area. -/
structure BlobRecord where
  contour : List (ℤ × ℤ)
  area : ℚ
  deriving DecidableEq

/-- The pipeline result: the retained count and the retained blob
records, in input order. -/
structure PipelineResult where
  count : Nat
  blobs : List BlobRecord
  deriving DecidableEq

/-- The Filtering/Counting Stage, embedded from the notebook
comprehension: filtered_contours keeps exactly the contours whose area
strictly exceeds the minimum, in input order, and the count is the
number retained. -/
def filterStage (cs : List (List (ℤ × ℤ))) (minArea : ℚ) : PipelineResult :=
  let filtered_contours := cs.filter fun c => minArea < contourArea c
  ⟨filtered_contours.length, filtered_contours.map fun c => ⟨c, contourArea c⟩⟩

/-- Foreground test on a binary mask: the position is in range and holds
the foreground sentinel 255. -/
def fgb (m : Img) (p : Pt) : Bool :=
  decide (p.1 < m.h) && decide (p.2 < m.w) && decide (m.pix p.1 p.2 = 255)

/-- 8-adjacency of two positions: distinct, and each coordinate differs
by at most one. -/
def adj8 (p q : Pt) : Bool :=
  !(decide (p = q)) && decide (p.1 ≤ q.1 + 1) && decide (q.1 ≤ p.1 + 1) &&
    decide (p.2 ≤ q.2 + 1) && decide (q.2 ≤ p.2 + 1)

/-- One round of flood fill: extend the current set by every foreground
position 8-adjacent to it that is not yet present. -/
def grow (m : Img) (cur : List Pt) : List Pt :=
  cur ++ (allPts m).filter fun q =>
    fgb m q && !(cur.contains q) && cur.any fun p => adj8 p q

/-- Iterated flood fill with fuel, stopping early at a fixed point. -/
def growN (m : Img) : Nat → List Pt → List Pt
  | 0, cur => cur
  | n + 1, cur =>
      let cur' := grow m cur
      if cur'.length = cur.length then cur else growN m n cur'

/-- The flood-fill component of a seed position: every foreground
position reachable from the seed through 8-adjacent foreground steps.
The fuel h * w always suffices. -/
def component (m : Img) (s : Pt) : List Pt := growN m (m.h * m.w) [s]

/-- Scan the given positions in order, starting a new flood-fill
component at every foreground position not yet covered. -/
def compsAux (m : Img) : List Pt → List (List Pt) → List (List Pt)
  | [], acc => acc
  | p :: rest, acc =>
      if fgb m p && !(acc.any fun comp => comp.contains p) then
        compsAux m rest (acc ++ [component m p])
      else compsAux m rest acc

/-- The maximal 8-connected foreground regions of a mask, in row-major
discovery order. -/
def componentsList (m : Img) : List (List Pt) := compsAux m (allPts m) []

/-- Foreground test at signed coordinates; positions outside the grid
are background. -/
def fgI (m : Img) (p : ℤ × ℤ) : Bool :=
  decide (0 ≤ p.1) && decide (p.1 < (m.h : ℤ)) && decide (0 ≤ p.2) &&
    decide (p.2 < (m.w : ℤ)) && decide (m.pix p.1.toNat p.2.toNat = 255)

/-- The eight Moore directions in clockwise order (row grows downward):
E, SE, S, SW, W, NW, N, NE. -/
def dirs8 : List (ℤ × ℤ) :=
  [(0, 1), (1, 1), (1, 0), (1, -1), (0, -1), (-1, -1), (-1, 0), (-1, 1)]

/-- Vector sum of signed positions. -/
def ptAdd (p q : ℤ × ℤ) : ℤ × ℤ := (p.1 + q.1, p.2 + q.2)

/-- Scan the Moore neighbourhood of cur clockwise, starting just after
the backtrack direction; return the first foreground neighbour together
with the direction index from the new position back to the last
background cell examined before it. -/
def scanNext (m : Img) (cur : ℤ × ℤ) (backIdx : Nat) : Option ((ℤ × ℤ) × Nat) :=
  let rec go : Nat → Option ((ℤ × ℤ) × Nat)
    | 0 => none
    | j + 1 =>
        match go j with
        | some r => some r
        | none =>
            let idx := (backIdx + j + 1) % 8
            let cell := ptAdd cur (dirs8.getD idx (0, 0))
            if fgI m cell then
              let prev := ptAdd cur (dirs8.getD ((idx + 7) % 8) (0, 0))
              let d := (prev.1 - cell.1, prev.2 - cell.2)
              some (cell, (List.findIdx (fun x => x = d) dirs8) % 8)
            else none
  go 8

/-- Moore boundary following around one component, with fuel; the walk
stops when it returns to the start pixel. -/
def traceLoop (m : Img) (start : ℤ × ℤ) : Nat → (ℤ × ℤ) → Nat → List (ℤ × ℤ)
  | 0, _, _ => []
  | fuel + 1, cur, backIdx =>
      match scanNext m cur backIdx with
      | none => []
      | some (next, nb) =>
          if next = start then [] else next :: traceLoop m start fuel next nb

/-- Modelled from the spec: the outer boundary of the component seeded
at s (its topmost-leftmost pixel), as the clockwise sequence of boundary
pixels.  The initial backtrack direction is west (index 4), which is
background for a topmost-leftmost start pixel. -/
def traceBoundary (m : Img) (s : Pt) : List (ℤ × ℤ) :=
  let st : ℤ × ℤ := ((s.1 : ℤ), (s.2 : ℤ))
  st :: traceLoop m st (8 * (m.h * m.w) + 8) st 4

/-- The unit direction (coordinatewise sign) from a to b. -/
def dirOf (a b : ℤ × ℤ) : ℤ × ℤ := (Int.sign (b.1 - a.1), Int.sign (b.2 - a.2))

/-- Merge runs of boundary steps sharing one direction: a is the last
vertex already committed, b the candidate vertex; a step continuing in
the same direction drops b, a direction change commits it. -/
def compressRun (a b : ℤ × ℤ) : List (ℤ × ℤ) → List (ℤ × ℤ)
  | [] => [a, b]
  | c :: rest =>
      if dirOf a b = dirOf b c then compressRun a c rest
      else a :: compressRun b c rest

/-- Merge runs of boundary steps sharing one direction, keeping only the
vertices where the boundary changes direction (the CHAIN_APPROX_SIMPLE
storage policy described by the spec). -/
def compressContour : List (ℤ × ℤ) → List (ℤ × ℤ)
  | a :: b :: rest => compressRun a b rest
  | l => l

/-- Modelled from the spec: the Contour Extraction Stage
(cv2.findContours with RETR_EXTERNAL and CHAIN_APPROX_SIMPLE, not
implemented in the repository).  One contour per maximal 8-connected
foreground region, outer boundary only, stored in compressed form. -/
def findContours (m : Img) : List (List (ℤ × ℤ)) :=
  (componentsList m).map fun comp => compressContour (traceBoundary m (comp.headI))

/-- The threshold mode of the pipeline configuration. -/
inductive ThreshMode where
  | globalMode : ThreshMode
  | adaptiveMode : ThreshMode
  deriving DecidableEq

/-- The tunable parameter set of the pipeline. -/
structure Params where
  blur_kernel_size : Nat
  threshold_mode : ThreshMode
  threshold_value : ℤ
  adaptive_block_size : Nat
  adaptive_offset : ℚ
  min_blob_area : ℚ

/-- The error kind surfaced at the parameter-validation boundary. -/
inductive PipelineError where
  | invalidParameter : PipelineError
  deriving DecidableEq

/-- Modelled from the spec: the parameter-validation predicate — true
exactly when some tunable is malformed (kernel size even, non-positive
or exceeding either array dimension; global threshold outside [0, 255];
adaptive block size even or at most 1). -/
def paramsInvalid (a : Img) (p : Params) : Bool :=
  decide (p.blur_kernel_size % 2 = 0) || decide (p.blur_kernel_size = 0) ||
    decide (a.h < p.blur_kernel_size) || decide (a.w < p.blur_kernel_size) ||
    decide (p.threshold_value < 0) || decide ((255 : ℤ) < p.threshold_value) ||
    decide (p.adaptive_block_size % 2 = 0) || decide (p.adaptive_block_size ≤ 1)

/-- Modelled from the spec: the four-stage Nucleus Counting Pipeline.
Parameters are validated first; on success the stages run in order —
smoothing, thresholding (global or adaptive), contour extraction, area
filtering — and a complete result is returned. -/
def runPipeline (a : Img) (p : Params) : Except PipelineError PipelineResult :=
  if paramsInvalid a p then .error .invalidParameter
  else
    let blurred := GaussianBlur a p.blur_kernel_size
    let mask :=
      match p.threshold_mode with
      | .globalMode => threshold blurred p.threshold_value
      | .adaptiveMode => adaptiveThreshold blurred p.adaptive_block_size p.adaptive_offset
    .ok (filterStage (findContours mask) p.min_blob_area)

/-- The scenario image of the spec: a 10 x 10 array, all zero except a
filled 4 x 4 square of value 200 at rows and columns 3 through 6. -/
def scenarioImg : Img :=
  ⟨10, 10, fun i j => if 3 ≤ i ∧ i ≤ 6 ∧ 3 ≤ j ∧ j ≤ 6 then 200 else 0⟩

/-- The scenario parameter set: kernel 1 (no-op), global threshold 100,
variable minimum blob area. -/
def scenarioParams (minArea : ℚ) : Params := ⟨1, .globalMode, 100, 3, 0, minArea⟩

/-- Ideal statement of the global-threshold pixel rule, used to compare
the embedded stage against the specification sentence. -/
theorem threshold_pix_char (src : Img) (t : ℤ) (i j : Nat) :
    ((threshold src t).pix i j = 255 ↔ (src.pix i j : ℤ) > t) ∧
      ((threshold src t).pix i j = 0 ∨ (threshold src t).pix i j = 255) := by
  simp only [threshold]
  by_cases h : (src.pix i j : ℤ) > t <;> simp [h]

/-- The exact integer comparison used by the adaptive stage is
equivalent to the rational comparison of the spec (intensity strictly
above the block mean minus the offset). -/
theorem adaptive_cond_iff (p s N : ℕ) (hN : 0 < N) (c : ℚ) :
    ((p : ℤ) * (N : ℤ) * (c.den : ℤ) > (s : ℤ) * (c.den : ℤ) - c.num * (N : ℤ)) ↔
      ((s : ℚ) / (N : ℚ) - c < (p : ℚ)) := by
  have hNq : (0 : ℚ) < (N : ℚ) := by exact_mod_cast hN
  have hden : (0 : ℚ) < (c.den : ℚ) := by exact_mod_cast c.pos
  have hnum : (c.num : ℚ) = c * (c.den : ℚ) := by
    rw [eq_comm, ← eq_div_iff (ne_of_gt hden)]
    exact (Rat.num_div_den c).symm
  rw [sub_lt_iff_lt_add, div_lt_iff₀ hNq, gt_iff_lt, ← Int.cast_lt (R := ℚ)]
  push_cast
  constructor <;> intro h <;> nlinarith [h, hden, hnum, hNq, mul_pos hNq hden]

/-- The adaptive stage computes exactly the comparison of the spec: the
pixel is foreground when its intensity strictly exceeds the block mean
minus the offset. -/
theorem adaptiveThreshold_pix_iff (src : Img) (blockSize : Nat) (c : ℚ)
    (hb : 0 < blockSize) (i j : Nat) :
    (adaptiveThreshold src blockSize c).pix i j = 255 ↔
      (src.pix i j : ℚ) >
        (blockSum src blockSize i j : ℚ) / ((blockSize * blockSize : ℕ) : ℚ) - c := by
  have key := adaptive_cond_iff (src.pix i j) (blockSum src blockSize i j)
    (blockSize * blockSize) (Nat.mul_pos hb hb) c
  simp only [adaptiveThreshold, gt_iff_lt]
  by_cases hcond : (src.pix i j : ℤ) * ((blockSize * blockSize : ℕ) : ℤ) * (c.den : ℤ) >
      (blockSum src blockSize i j : ℤ) * (c.den : ℤ) -
        c.num * ((blockSize * blockSize : ℕ) : ℤ)
  · rw [if_pos (by exact_mod_cast hcond)]
    simp only [true_iff]
    exact key.mp (by exact_mod_cast hcond)
  · rw [if_neg (by exact_mod_cast hcond)]
    constructor
    · intro h
      omega
    · intro h
      exact absurd (key.mpr h) (by exact_mod_cast hcond)

/-- C2.  For every intensity array and every global threshold T in
[0, 255], the thresholding stage yields a mask of the same dimensions in
which a pixel is 255 exactly when the source intensity strictly exceeds
T, no pixel with intensity at most T is foreground, and every cell is
one of the two sentinels 0 and 255. -/
theorem global_threshold_char (src : Img) (t : ℤ) (h0 : 0 ≤ t) (h255 : t ≤ 255) :
    (threshold src t).h = src.h ∧ (threshold src t).w = src.w ∧
      ∀ i j, i < src.h → j < src.w →
        ((threshold src t).pix i j = 255 ↔ (src.pix i j : ℤ) > t) ∧
          ((src.pix i j : ℤ) ≤ t → (threshold src t).pix i j = 0) ∧
          ((threshold src t).pix i j = 0 ∨ (threshold src t).pix i j = 255) := by
  refine ⟨rfl, rfl, fun i j _ _ => ⟨(threshold_pix_char src t i j).1, fun hle => ?_,
    (threshold_pix_char src t i j).2⟩⟩
  simp only [threshold]
  rw [if_neg (by omega)]

/-- Witness for C2 at a concrete array and threshold. -/
theorem global_threshold_char_witness :
    (0 : ℤ) ≤ 100 ∧ (100 : ℤ) ≤ 255 ∧
      ((threshold scenarioImg 100).h = scenarioImg.h ∧
        (threshold scenarioImg 100).w = scenarioImg.w ∧
        ∀ i j, i < scenarioImg.h → j < scenarioImg.w →
          ((threshold scenarioImg 100).pix i j = 255 ↔ (scenarioImg.pix i j : ℤ) > 100) ∧
            ((scenarioImg.pix i j : ℤ) ≤ 100 → (threshold scenarioImg 100).pix i j = 0) ∧
            ((threshold scenarioImg 100).pix i j = 0 ∨
              (threshold scenarioImg 100).pix i j = 255)) :=
  ⟨by decide, by decide, global_threshold_char scenarioImg 100 (by decide) (by decide)⟩

/-- The retained contour list of the filtering stage is the filter of
the input by the strict area test. -/
theorem filterStage_contours_eq (cs : List (List (ℤ × ℤ))) (t : ℚ) :
    (filterStage cs t).blobs.map BlobRecord.contour =
      cs.filter (fun c => t < contourArea c) := by
  simp [filterStage, List.map_map, Function.comp_def]

/-- A contour is retained by the filtering stage exactly when it occurs
in the input and its area strictly exceeds the threshold. -/
theorem filterStage_contour_mem (cs : List (List (ℤ × ℤ))) (t : ℚ) (c : List (ℤ × ℤ)) :
    c ∈ (filterStage cs t).blobs.map BlobRecord.contour ↔
      c ∈ cs ∧ t < contourArea c := by
  rw [filterStage_contours_eq, List.mem_filter]
  simp

/-- C3.  The filtering stage retains exactly the contours whose area
strictly exceeds the threshold, the count equals the number retained,
the records appear in input order (the retained contour list is a
sublist of the input), and each record carries the area computed for
its contour. -/
theorem filter_counting_char (cs : List (List (ℤ × ℤ))) (t : ℚ) :
    (filterStage cs t).count = (filterStage cs t).blobs.length ∧
      (filterStage cs t).blobs.map BlobRecord.contour = cs.filter (fun c => t < contourArea c) ∧
      List.Sublist ((filterStage cs t).blobs.map BlobRecord.contour) cs ∧
      (∀ c, c ∈ (filterStage cs t).blobs.map BlobRecord.contour ↔
        c ∈ cs ∧ t < contourArea c) ∧
      ∀ b ∈ (filterStage cs t).blobs, b.area = contourArea b.contour := by
  have hmap := filterStage_contours_eq cs t
  refine ⟨by simp [filterStage], hmap, ?_, filterStage_contour_mem cs t, ?_⟩
  · rw [hmap]; exact List.filter_sublist cs
  · intro b hb
    simp only [filterStage, List.mem_map] at hb
    obtain ⟨c, _, rfl⟩ := hb
    rfl

/-- Helper: a filter with a pointwise stronger predicate is at most as
long as one with a weaker predicate. -/
theorem length_filter_mono {α : Type} (l : List α) (p q : α → Bool)
    (h : ∀ x, p x = true → q x = true) :
    (l.filter p).length ≤ (l.filter q).length := by
  induction l with
  | nil => simp
  | cons a l ih =>
      simp only [List.filter_cons]
      by_cases hp : p a = true
      · rw [if_pos hp, if_pos (h a hp)]
        simp only [List.length_cons]
        omega
      · rw [if_neg hp]
        by_cases hq : q a = true
        · rw [if_pos hq]
          simp only [List.length_cons]
          omega
        · rw [if_neg hq]
          exact ih

/-- C4.  For a fixed binary mask, the resulting count is antitone in the
minimum blob area: a larger threshold never yields a larger count. -/
theorem count_antitone_min_area (m : Img) (a b : ℚ) (hab : a ≤ b) :
    (filterStage (findContours m) b).count ≤ (filterStage (findContours m) a).count := by
  simp only [filterStage]
  exact length_filter_mono (findContours m) _ _ fun c hc => by
    simp only [decide_eq_true_eq] at hc ⊢
    exact lt_of_le_of_lt hab hc

/-- Witness for C4 at a concrete mask and threshold pair. -/
theorem count_antitone_min_area_witness :
    (0 : ℚ) ≤ 20 ∧
      (filterStage (findContours (threshold (GaussianBlur scenarioImg 1) 100)) 20).count ≤
        (filterStage (findContours (threshold (GaussianBlur scenarioImg 1) 100)) 0).count :=
  ⟨by norm_num, count_antitone_min_area (threshold (GaussianBlur scenarioImg 1) 100) 0 20
    (by norm_num)⟩

/-- The shoelace sum of a polygon with fewer than three vertices
vanishes. -/
theorem shoelace_degenerate (c : List (ℤ × ℤ)) (h : c.length < 3) : shoelace c = 0 := by
  match c with
  | [] => rfl
  | [p] =>
      show shoelaceAux p [p] = 0
      simp only [shoelaceAux]
      ring
  | [p, q] =>
      show shoelaceAux p [p, q] = 0
      simp only [shoelaceAux]
      ring
  | p :: q :: r :: rest =>
      exfalso
      simp only [List.length_cons] at h
      omega

/-- C7.  The filtering stage is total and recovers degenerate geometry
locally: a contour with fewer than three vertices has area 0 and, for
any non-negative threshold, never appears among the retained records;
all other contours are processed by the ordinary strict-area rule. -/
theorem degenerate_contour_handling (cs : List (List (ℤ × ℤ))) (t : ℚ) (ht : 0 ≤ t) :
    (∀ c, c.length < 3 → contourArea c = 0) ∧
      (∀ c, c.length < 3 → ∀ b ∈ (filterStage cs t).blobs, b.contour ≠ c) ∧
      (∀ c, c ∈ (filterStage cs t).blobs.map BlobRecord.contour ↔
        c ∈ cs ∧ t < contourArea c) := by
  have harea : ∀ c : List (ℤ × ℤ), c.length < 3 → contourArea c = 0 := by
    intro c hc
    rw [contourArea_eq, shoelace_degenerate c hc]
    norm_num
  refine ⟨harea, fun c hc b hb hbc => ?_, filterStage_contour_mem cs t⟩
  have hmem : b.contour ∈ (filterStage cs t).blobs.map BlobRecord.contour :=
    List.mem_map_of_mem BlobRecord.contour hb
  rw [filterStage_contour_mem cs t b.contour] at hmem
  rw [hbc, harea c hc] at hmem
  exact absurd hmem.2 (not_lt.mpr ht)

/-- Witness for C7 at a concrete contour list and threshold. -/
theorem degenerate_contour_handling_witness :
    (0 : ℚ) ≤ 0 ∧
      ((∀ c, c.length < 3 → contourArea c = 0) ∧
        (∀ c, c.length < 3 →
          ∀ b ∈ (filterStage [[((0 : ℤ), (0 : ℤ)), (0, 5)]] 0).blobs, b.contour ≠ c) ∧
        (∀ c, c ∈ (filterStage [[((0 : ℤ), (0 : ℤ)), (0, 5)]] 0).blobs.map BlobRecord.contour ↔
          c ∈ [[((0 : ℤ), (0 : ℤ)), (0, 5)]] ∧ 0 < contourArea c)) :=
  ⟨le_refl 0, degenerate_contour_handling [[((0 : ℤ), (0 : ℤ)), (0, 5)]] 0 (le_refl 0)⟩

/-- C8.  Validation is atomic and complete: every invocation either
returns a complete result or fails with InvalidParameter, and it fails
exactly when the kernel size is even, zero or larger than a dimension,
the global threshold lies outside [0, 255], or the adaptive block size
is even or at most 1. -/
theorem validation_atomic (a : Img) (p : Params) :
    ((∃ r, runPipeline a p = .ok r) ∨ runPipeline a p = .error .invalidParameter) ∧
      (runPipeline a p = .error .invalidParameter ↔
        (p.blur_kernel_size % 2 = 0 ∨ p.blur_kernel_size = 0 ∨
          a.h < p.blur_kernel_size ∨ a.w < p.blur_kernel_size ∨
          p.threshold_value < 0 ∨ 255 < p.threshold_value ∨
          p.adaptive_block_size % 2 = 0 ∨ p.adaptive_block_size ≤ 1)) := by
  by_cases h : paramsInvalid a p = true
  · refine ⟨Or.inr (by simp [runPipeline, h]), ?_⟩
    rw [iff_true_intro (show runPipeline a p = .error .invalidParameter by
      simp [runPipeline, h])]
    simp only [true_iff]
    simp only [paramsInvalid, Bool.or_eq_true, decide_eq_true_eq] at h
    tauto
  · have hfalse : paramsInvalid a p = false := by simp_all
    refine ⟨Or.inl ⟨_, by unfold runPipeline; rw [hfalse]; exact rfl⟩, ?_⟩
    constructor
    · intro hcontra
      simp [runPipeline, hfalse] at hcontra
    · intro hcond
      exfalso
      simp only [paramsInvalid, Bool.or_eq_true, decide_eq_true_eq] at h
      tauto

/-- C9.  The pipeline is deterministic: two invocations on the same
array and parameter set yield the same outcome — equal results with
equal counts and areas on success, and the same error on failure. -/
theorem pipeline_deterministic (a : Img) (p : Params) (r₁ r₂ : PipelineResult)
    (h₁ : runPipeline a p = .ok r₁) (h₂ : runPipeline a p = .ok r₂) :
    r₁ = r₂ ∧ r₁.count = r₂.count ∧ r₁.blobs.map BlobRecord.area = r₂.blobs.map BlobRecord.area := by
  have : r₁ = r₂ := by
    have := h₁.symm.trans h₂
    exact Except.ok.inj this
  exact ⟨this, by rw [this], by rw [this]⟩

/-- Witness for C9 at the concrete scenario invocation. -/
theorem pipeline_deterministic_witness :
    runPipeline scenarioImg (scenarioParams 20) = .ok ⟨0, []⟩ ∧
      ((⟨0, []⟩ : PipelineResult) = ⟨0, []⟩ ∧
        (⟨0, []⟩ : PipelineResult).count = (⟨0, []⟩ : PipelineResult).count ∧
        (⟨0, []⟩ : PipelineResult).blobs.map BlobRecord.area =
          (⟨0, []⟩ : PipelineResult).blobs.map BlobRecord.area) :=
  ⟨by rfl, pipeline_deterministic scenarioImg (scenarioParams 20) ⟨0, []⟩ ⟨0, []⟩
    (by rfl) (by rfl)⟩

/-- One connectivity step: move to an 8-adjacent foreground position. -/
def connStep (m : Img) (a b : Pt) : Prop := adj8 a b = true ∧ fgb m b = true

/-- Connectivity through foreground positions: the reflexive-transitive
closure of single 8-adjacent foreground steps.  This is the
specification-side notion against which the flood fill is verified. -/
def Conn (m : Img) : Pt → Pt → Prop := Relation.ReflTransGen (connStep m)

/-- A maximal 8-connected foreground region: nonempty, entirely
foreground, pairwise connected, and closed under 8-adjacent foreground
extension. -/
def IsRegion (m : Img) (S : Set Pt) : Prop :=
  S.Nonempty ∧ (∀ p ∈ S, fgb m p = true) ∧ (∀ p ∈ S, ∀ q ∈ S, Conn m p q) ∧
    ∀ p ∈ S, ∀ q, adj8 p q = true → fgb m q = true → q ∈ S

/-- Membership in the row-major enumeration is exactly being in range. -/
theorem mem_allPts (a : Img) (p : Pt) : p ∈ allPts a ↔ p.1 < a.h ∧ p.2 < a.w := by
  cases p with
  | mk i j =>
    simp only [allPts, List.mem_flatMap, List.mem_map, List.mem_range]
    constructor
    · rintro ⟨i', hi', j', hj', hEq⟩
      obtain ⟨rfl, rfl⟩ := Prod.mk.injEq .. ▸ hEq
      exact ⟨hi', hj'⟩
    · rintro ⟨hi, hj⟩
      exact ⟨i, hi, j, hj, rfl⟩

/-- The enumeration of positions has length h * w. -/
theorem length_allPts (a : Img) : (allPts a).length = a.h * a.w := by
  simp only [allPts, List.length_flatMap, List.length_map, List.length_range]
  induction a.h with
  | zero => simp
  | succ n ih => simp [List.range_succ, ih, Nat.succ_mul]

/-- The enumeration of positions has no duplicates. -/
theorem allPts_nodup (a : Img) : (allPts a).Nodup := by
  rw [allPts, List.nodup_flatMap]
  constructor
  · intro i _
    exact (List.nodup_range _).map (fun j j' h => (Prod.mk.injEq .. ▸ h).2)
  · refine List.Pairwise.imp ?_ (List.nodup_range a.h)
    intro i i' hne x hx hx'
    simp only [List.mem_map, List.mem_range] at hx hx'
    obtain ⟨j, _, rfl⟩ := hx
    obtain ⟨j', _, hEq⟩ := hx'
    exact hne (Prod.mk.injEq .. ▸ hEq).1.symm

/-- A foreground position satisfies the bounds and sentinel conditions. -/
theorem fgb_spec (m : Img) (p : Pt) (h : fgb m p = true) :
    p.1 < m.h ∧ p.2 < m.w ∧ m.pix p.1 p.2 = 255 := by
  simp only [fgb, Bool.and_eq_true, decide_eq_true_eq] at h
  exact ⟨h.1.1, h.1.2, h.2⟩

/-- A foreground position lies in the enumeration. -/
theorem fgb_mem_allPts (m : Img) (p : Pt) (h : fgb m p = true) : p ∈ allPts m :=
  (mem_allPts m p).mpr ⟨(fgb_spec m p h).1, (fgb_spec m p h).2.1⟩

/-- 8-adjacency is symmetric. -/
theorem adj8_symm (p q : Pt) (h : adj8 p q = true) : adj8 q p = true := by
  simp only [adj8, Bool.and_eq_true, Bool.not_eq_true', decide_eq_false_iff_not,
    decide_eq_true_eq] at h ⊢
  obtain ⟨⟨⟨⟨h1, h2⟩, h3⟩, h4⟩, h5⟩ := h
  exact ⟨⟨⟨⟨fun hEq => h1 hEq.symm, h3⟩, h2⟩, h5⟩, h4⟩

/-- The endpoint of a connectivity path from a foreground position is
foreground. -/
theorem conn_fg (m : Img) {p q : Pt} (hp : fgb m p = true) (h : Conn m p q) :
    fgb m q = true := by
  induction h with
  | refl => exact hp
  | tail _ step _ => exact step.2

/-- Connectivity between foreground positions is symmetric. -/
theorem conn_symm (m : Img) {p q : Pt} (hp : fgb m p = true) (h : Conn m p q) :
    Conn m q p := by
  induction h with
  | refl => exact Relation.ReflTransGen.refl
  | tail hconn step ih =>
      exact Relation.ReflTransGen.head ⟨adj8_symm _ _ step.1, conn_fg m hp hconn⟩ ih

/-- Bool-level membership test, negated form. -/
theorem contains_eq_false_iff (l : List Pt) (x : Pt) : l.contains x = false ↔ x ∉ l := by
  rw [show l.contains x = l.elem x from rfl, ← Bool.not_eq_true]
  exact not_congr List.elem_iff

/-- Bool-level membership test, positive form. -/
theorem contains_eq_true_iff (l : List Pt) (x : Pt) : l.contains x = true ↔ x ∈ l := by
  rw [show l.contains x = l.elem x from rfl]
  exact List.elem_iff

/-- The current set is an initial segment of its extension. -/
theorem subset_grow (m : Img) (cur : List Pt) : cur ⊆ grow m cur :=
  fun _ hx => List.mem_append.mpr (Or.inl hx)

/-- Extension stays inside the enumeration. -/
theorem grow_subset_allPts (m : Img) (cur : List Pt) (h : cur ⊆ allPts m) :
    grow m cur ⊆ allPts m := by
  intro x hx
  rcases List.mem_append.mp hx with hx | hx
  · exact h hx
  · exact List.mem_of_mem_filter hx

/-- Extension preserves distinctness. -/
theorem grow_nodup (m : Img) (cur : List Pt) (h : cur.Nodup) : (grow m cur).Nodup := by
  rw [grow, List.nodup_append]
  refine ⟨h, List.Nodup.filter _ (allPts_nodup m), ?_⟩
  intro x hx hx'
  have := List.of_mem_filter hx'
  simp only [Bool.and_eq_true, Bool.not_eq_true'] at this
  exact (contains_eq_false_iff _ _).mp this.1.2 hx

/-- Every extended element is either old, or a fresh foreground position
adjacent to an old one. -/
theorem mem_grow_cases (m : Img) (cur : List Pt) (x : Pt) (hx : x ∈ grow m cur) :
    x ∈ cur ∨ (fgb m x = true ∧ x ∉ cur ∧ ∃ p ∈ cur, adj8 p x = true) := by
  rcases List.mem_append.mp hx with hx | hx
  · exact Or.inl hx
  · right
    have hcond := List.of_mem_filter hx
    simp only [Bool.and_eq_true, Bool.not_eq_true', List.any_eq_true] at hcond
    exact ⟨hcond.1.1, (contains_eq_false_iff _ _).mp hcond.1.2, hcond.2⟩

/-- A fixed point of the extension step is closed under 8-adjacent
foreground extension. -/
theorem grow_fixed_closed (m : Img) (cur : List Pt) (hfix : grow m cur = cur)
    (p : Pt) (hp : p ∈ cur) (q : Pt) (hadj : adj8 p q = true) (hq : fgb m q = true) :
    q ∈ cur := by
  by_contra hqn
  have hqmem : q ∈ (allPts m).filter fun x =>
      fgb m x && !(cur.contains x) && cur.any fun r => adj8 r x := by
    refine List.mem_filter.mpr ⟨fgb_mem_allPts m q hq, ?_⟩
    simp only [Bool.and_eq_true, Bool.not_eq_true', List.any_eq_true]
    exact ⟨⟨hq, (contains_eq_false_iff _ _).mpr hqn⟩, p, hp, hadj⟩
  have hlen : (grow m cur).length = cur.length + ((allPts m).filter fun x =>
      fgb m x && !(cur.contains x) && cur.any fun r => adj8 r x).length := by
    simp [grow]
  have hpos : 0 < ((allPts m).filter fun x =>
      fgb m x && !(cur.contains x) && cur.any fun r => adj8 r x).length :=
    List.length_pos_of_mem hqmem
  have := congrArg List.length hfix
  omega

/-- The flood fill only grows. -/
theorem subset_growN (m : Img) (n : Nat) (cur : List Pt) : cur ⊆ growN m n cur := by
  induction n generalizing cur with
  | zero => exact fun _ hx => hx
  | succ n ih =>
      rw [growN]
      by_cases hlen : (grow m cur).length = cur.length
      · rw [if_pos hlen]
        exact fun _ hx => hx
      · rw [if_neg hlen]
        exact fun x hx => ih (grow m cur) (subset_grow m cur hx)

/-- A fixed point of the extension is a fixed point of the iteration. -/
theorem growN_of_fixed (m : Img) (n : Nat) (cur : List Pt) (hfix : grow m cur = cur) :
    growN m n cur = cur := by
  induction n with
  | zero => rfl
  | succ n _ =>
      rw [growN, if_pos (by rw [hfix])]

/-- With enough fuel the iteration reaches a fixed point of the
extension step. -/
theorem growN_reaches_fixed (m : Img) (n : Nat) (cur : List Pt) (hnd : cur.Nodup)
    (hsub : cur ⊆ allPts m) (hfuel : (allPts m).length + 1 ≤ n + cur.length) :
    grow m (growN m n cur) = growN m n cur := by
  induction n generalizing cur with
  | zero =>
      exfalso
      have hle : cur.length ≤ (allPts m).length :=
        List.Subperm.length_le (hnd.subperm hsub)
      omega
  | succ n ih =>
      rw [growN]
      by_cases hlen : (grow m cur).length = cur.length
      · rw [if_pos hlen]
        have hnil : ((allPts m).filter fun x =>
            fgb m x && !(cur.contains x) && cur.any fun r => adj8 r x) = [] := by
          have : (grow m cur).length = cur.length + ((allPts m).filter fun x =>
              fgb m x && !(cur.contains x) && cur.any fun r => adj8 r x).length := by
            simp [grow]
          refine List.eq_nil_of_length_eq_zero ?_
          omega
        rw [grow, hnil, List.append_nil]
      · rw [if_neg hlen]
        refine ih (grow m cur) (grow_nodup m cur hnd) (grow_subset_allPts m cur hsub) ?_
        have hge : cur.length ≤ (grow m cur).length := by
          simp [grow]
        omega

/-- One extension step preserves connectivity to the seed. -/
theorem grow_sound (m : Img) (s : Pt) (cur : List Pt)
    (hinv : ∀ x ∈ cur, Conn m s x) : ∀ x ∈ grow m cur, Conn m s x := by
  intro x hx
  rcases mem_grow_cases m cur x hx with hx | ⟨hfg, _, p, hp, hadj⟩
  · exact hinv x hx
  · exact (hinv p hp).tail ⟨hadj, hfg⟩

/-- The iterated extension preserves connectivity to the seed. -/
theorem growN_sound (m : Img) (s : Pt) (n : Nat) (cur : List Pt)
    (hinv : ∀ x ∈ cur, Conn m s x) : ∀ x ∈ growN m n cur, Conn m s x := by
  induction n generalizing cur with
  | zero => exact hinv
  | succ n ih =>
      rw [growN]
      by_cases hlen : (grow m cur).length = cur.length
      · rw [if_pos hlen]
        exact hinv
      · rw [if_neg hlen]
        exact ih (grow m cur) (grow_sound m s cur hinv)

/-- The flood-fill component of a foreground seed is a fixed point of the
extension step. -/
theorem component_fixed (m : Img) (s : Pt) (hs : fgb m s = true) :
    grow m (component m s) = component m s := by
  refine growN_reaches_fixed m (m.h * m.w) [s] (List.nodup_singleton s) ?_ ?_
  · intro x hx
    rw [List.mem_singleton] at hx
    subst hx
    exact fgb_mem_allPts m x hs
  · rw [length_allPts]
    simp

/-- Characterisation of the flood fill: the component of a foreground
seed collects exactly the positions connected to it. -/
theorem mem_component_iff (m : Img) (s : Pt) (hs : fgb m s = true) (p : Pt) :
    p ∈ component m s ↔ Conn m s p := by
  constructor
  · refine growN_sound m s (m.h * m.w) [s] ?_ p
    intro x hx
    rw [List.mem_singleton] at hx
    subst hx
    exact Relation.ReflTransGen.refl
  · intro h
    induction h with
    | refl => exact subset_growN m (m.h * m.w) [s] (List.mem_singleton.mpr rfl)
    | tail _ step ih =>
        exact grow_fixed_closed m (component m s) (component_fixed m s hs) _ ih _
          step.1 step.2

/-- The seed belongs to its own component. -/
theorem self_mem_component (m : Img) (s : Pt) : s ∈ component m s :=
  subset_growN m (m.h * m.w) [s] (List.mem_singleton.mpr rfl)

/-- Every member of the component of a foreground seed is foreground. -/
theorem component_fg (m : Img) (s : Pt) (hs : fgb m s = true) (p : Pt)
    (hp : p ∈ component m s) : fgb m p = true :=
  conn_fg m hs ((mem_component_iff m s hs p).mp hp)

/-- The component of a foreground seed, as a set, is a maximal
8-connected foreground region. -/
theorem component_isRegion (m : Img) (s : Pt) (hs : fgb m s = true) :
    IsRegion m {p | p ∈ component m s} := by
  refine ⟨⟨s, self_mem_component m s⟩, fun p hp => component_fg m s hs p hp, ?_, ?_⟩
  · intro p hp q hq
    have hsp := (mem_component_iff m s hs p).mp hp
    have hsq := (mem_component_iff m s hs q).mp hq
    exact (conn_symm m hs hsp).trans hsq
  · intro p hp q hadj hq
    exact (mem_component_iff m s hs q).mpr (((mem_component_iff m s hs p).mp hp).tail
      ⟨hadj, hq⟩)

/-- A maximal region containing p is exactly the set of positions
connected to p. -/
theorem region_eq_connSet (m : Img) (S : Set Pt) (hS : IsRegion m S) (p : Pt)
    (hp : p ∈ S) : S = {q | Conn m p q} := by
  obtain ⟨-, hfg, hconn, hclosed⟩ := hS
  ext q
  constructor
  · intro hq
    exact hconn p hp q hq
  · intro hq
    simp only [Set.mem_setOf_eq] at hq
    induction hq with
    | refl => exact hp
    | tail _ step ih => exact hclosed _ ih _ step.1 step.2

/-- The invariant of the component scan: every collected entry is the
component of a foreground seed, and distinct entries never share a
position. -/
def GoodAcc (m : Img) (acc : List (List Pt)) : Prop :=
  (∀ C ∈ acc, ∃ s, fgb m s = true ∧ C = component m s) ∧
    ∀ C ∈ acc, ∀ D ∈ acc, ∀ p : Pt, p ∈ C → p ∈ D → C = D

/-- Two components sharing a position contain each other's seeds. -/
theorem seed_mem_of_shared (m : Img) (s x p : Pt) (hs : fgb m s = true)
    (hx : fgb m x = true) (hps : p ∈ component m s) (hpx : p ∈ component m x) :
    x ∈ component m s := by
  have h1 := (mem_component_iff m s hs p).mp hps
  have h2 := (mem_component_iff m x hx p).mp hpx
  exact (mem_component_iff m s hs x).mpr (h1.trans (conn_symm m hx h2))

/-- Appending a fresh component preserves the scan invariant. -/
theorem goodAcc_append (m : Img) (acc : List (List Pt)) (x : Pt)
    (hg : GoodAcc m acc) (hx : fgb m x = true) (hnew : ∀ C ∈ acc, x ∉ C) :
    GoodAcc m (acc ++ [component m x]) := by
  obtain ⟨hseed, hdisj⟩ := hg
  constructor
  · intro C hC
    rcases List.mem_append.mp hC with hC | hC
    · exact hseed C hC
    · rw [List.mem_singleton] at hC
      exact ⟨x, hx, hC⟩
  · intro C hC D hD p hpC hpD
    rcases List.mem_append.mp hC with hC | hC <;>
      rcases List.mem_append.mp hD with hD | hD
    · exact hdisj C hC D hD p hpC hpD
    · exfalso
      rw [List.mem_singleton] at hD
      subst hD
      obtain ⟨s, hsfg, rfl⟩ := hseed C hC
      exact hnew _ hC (seed_mem_of_shared m s x p hsfg hx hpC hpD)
    · exfalso
      rw [List.mem_singleton] at hC
      subst hC
      obtain ⟨s, hsfg, rfl⟩ := hseed D hD
      exact hnew _ hD (seed_mem_of_shared m s x p hsfg hx hpD hpC)
    · rw [List.mem_singleton] at hC hD
      rw [hC, hD]

/-- The scan preserves its invariant. -/
theorem compsAux_good (m : Img) (l : List Pt) (acc : List (List Pt))
    (hg : GoodAcc m acc) : GoodAcc m (compsAux m l acc) := by
  induction l generalizing acc with
  | nil => exact hg
  | cons p rest ih =>
      rw [compsAux]
      by_cases hcond : (fgb m p && !(acc.any fun comp => comp.contains p)) = true
      · rw [if_pos hcond]
        simp only [Bool.and_eq_true, Bool.not_eq_true', List.any_eq_true] at hcond
        refine ih _ (goodAcc_append m acc p hg hcond.1 ?_)
        intro C hC hpc
        rcases hcond with ⟨-, habs⟩
        rw [List.any_eq_false] at habs
        exact habs C hC ((contains_eq_true_iff _ _).mpr hpc)
      · rw [if_neg hcond]
        exact ih _ hg

/-- Entries persist through the scan. -/
theorem compsAux_mono (m : Img) (l : List Pt) (acc : List (List Pt)) :
    ∀ C ∈ acc, C ∈ compsAux m l acc := by
  induction l generalizing acc with
  | nil => exact fun C hC => hC
  | cons p rest ih =>
      intro C hC
      rw [compsAux]
      by_cases hcond : (fgb m p && !(acc.any fun comp => comp.contains p)) = true
      · rw [if_pos hcond]
        exact ih _ C (List.mem_append.mpr (Or.inl hC))
      · rw [if_neg hcond]
        exact ih _ C hC

/-- Every foreground position still to be scanned, or already covered,
is covered at the end of the scan. -/
theorem compsAux_cover (m : Img) (l : List Pt) (acc : List (List Pt))
    (hg : GoodAcc m acc) (p : Pt) (hp : fgb m p = true)
    (hpl : p ∈ l ∨ ∃ C ∈ acc, p ∈ C) : ∃ C ∈ compsAux m l acc, p ∈ C := by
  induction l generalizing acc with
  | nil =>
      rcases hpl with hpl | hpl
      · exact absurd hpl (List.not_mem_nil p)
      · exact hpl
  | cons x rest ih =>
      rw [compsAux]
      by_cases hcond : (fgb m x && !(acc.any fun comp => comp.contains x)) = true
      · rw [if_pos hcond]
        simp only [Bool.and_eq_true, Bool.not_eq_true', List.any_eq_true] at hcond
        have hnew : ∀ C ∈ acc, x ∉ C := by
          intro C hC hxc
          rcases hcond with ⟨-, habs⟩
          rw [List.any_eq_false] at habs
          exact habs C hC ((contains_eq_true_iff _ _).mpr hxc)
        refine ih _ (goodAcc_append m acc x hg hcond.1 hnew) ?_
        rcases hpl with hpl | hpl
        · rcases List.mem_cons.mp hpl with rfl | hpl
          · exact Or.inr ⟨component m p, List.mem_append.mpr (Or.inr
              (List.mem_singleton.mpr rfl)), self_mem_component m p⟩
          · exact Or.inl hpl
        · obtain ⟨C, hC, hpc⟩ := hpl
          exact Or.inr ⟨C, List.mem_append.mpr (Or.inl hC), hpc⟩
      · rw [if_neg hcond]
        refine ih _ hg ?_
        rcases hpl with hpl | hpl
        · rcases List.mem_cons.mp hpl with rfl | hpl
          · rw [Bool.and_eq_true, Bool.not_eq_true', List.any_eq_false] at hcond
            push_neg at hcond
            obtain ⟨C, hC, hcp⟩ := hcond hp
            exact Or.inr ⟨C, hC, (contains_eq_true_iff _ _).mp (by
              revert hcp
              cases C.contains p <;> simp)⟩
          · exact Or.inl hpl
        · exact Or.inr hpl

/-- The component list satisfies the scan invariant. -/
theorem componentsList_good (m : Img) : GoodAcc m (componentsList m) :=
  compsAux_good m (allPts m) [] ⟨fun C hC => absurd hC (List.not_mem_nil C),
    fun C hC => absurd hC (List.not_mem_nil C)⟩

/-- Every foreground position is covered by some component. -/
theorem componentsList_cover (m : Img) (p : Pt) (hp : fgb m p = true) :
    ∃ C ∈ componentsList m, p ∈ C :=
  compsAux_cover m (allPts m) [] ⟨fun C hC => absurd hC (List.not_mem_nil C),
    fun C hC => absurd hC (List.not_mem_nil C)⟩ p hp (Or.inl (fgb_mem_allPts m p hp))

/-- Two integers with the same sign sum to an integer of that sign. -/
theorem sign_add_eq (x y : ℤ) (h : Int.sign x = Int.sign y) :
    Int.sign (x + y) = Int.sign x := by
  rcases lt_trichotomy x 0 with hx | hx | hx
  · have hsx : Int.sign x = -1 := Int.sign_eq_neg_one_of_neg hx
    have hy : y < 0 := by
      have hsy : Int.sign y = -1 := by rw [← h, hsx]
      rcases lt_trichotomy y 0 with hy | hy | hy
      · exact hy
      · rw [hy] at hsy
        simp at hsy
      · rw [Int.sign_eq_one_of_pos hy] at hsy
        omega
    rw [hsx]
    exact Int.sign_eq_neg_one_of_neg (by omega)
  · subst hx
    have hy : y = 0 := by
      have hsy : Int.sign y = 0 := by rw [← h]; simp
      exact Int.sign_eq_zero_iff_zero.mp hsy
    subst hy
    rfl
  · have hsx : Int.sign x = 1 := Int.sign_eq_one_of_pos hx
    have hy : 0 < y := by
      have hsy : Int.sign y = 1 := by rw [← h, hsx]
      rcases lt_trichotomy y 0 with hy | hy | hy
      · rw [Int.sign_eq_neg_one_of_neg hy] at hsy
        omega
      · rw [hy] at hsy
        simp at hsy
      · exact hy
    rw [hsx]
    exact Int.sign_eq_one_of_pos (by omega)

/-- Merging two boundary steps with one direction keeps the direction. -/
theorem dirOf_trans (a b c : ℤ × ℤ) (h : dirOf a b = dirOf b c) :
    dirOf a c = dirOf a b := by
  have h1 : Int.sign (b.1 - a.1) = Int.sign (c.1 - b.1) := congrArg Prod.fst h
  have h2 : Int.sign (b.2 - a.2) = Int.sign (c.2 - b.2) := congrArg Prod.snd h
  have e1 : c.1 - a.1 = (b.1 - a.1) + (c.1 - b.1) := by ring
  have e2 : c.2 - a.2 = (b.2 - a.2) + (c.2 - b.2) := by ring
  simp only [dirOf, Prod.mk.injEq]
  exact ⟨by rw [e1, sign_add_eq _ _ h1], by rw [e2, sign_add_eq _ _ h2]⟩

/-- The vertex sequence stored for a boundary: every interior vertex is
a direction change. -/
def DirectionChanges : List (ℤ × ℤ) → Prop
  | a :: b :: c :: rest => dirOf a b ≠ dirOf b c ∧ DirectionChanges (b :: c :: rest)
  | _ => True

/-- The run merger keeps the committed vertex and the direction of the
first outgoing step. -/
theorem compressRun_head (a b : ℤ × ℤ) (l : List (ℤ × ℤ)) :
    ∃ z u, compressRun a b l = a :: z :: u ∧ dirOf a z = dirOf a b := by
  induction l generalizing a b with
  | nil => exact ⟨b, [], rfl, rfl⟩
  | cons c rest ih =>
      rw [compressRun]
      by_cases h : dirOf a b = dirOf b c
      · rw [if_pos h]
        obtain ⟨z, u, heq, hdir⟩ := ih a c
        exact ⟨z, u, heq, by rw [hdir, dirOf_trans a b c h]⟩
      · rw [if_neg h]
        obtain ⟨z, u, heq, -⟩ := ih b c
        exact ⟨b, z :: u, by rw [heq], rfl⟩

/-- Every vertex kept by the run merger is a direction change. -/
theorem compressRun_changes (a b : ℤ × ℤ) (l : List (ℤ × ℤ)) :
    DirectionChanges (compressRun a b l) := by
  induction l generalizing a b with
  | nil => trivial
  | cons c rest ih =>
      rw [compressRun]
      by_cases h : dirOf a b = dirOf b c
      · rw [if_pos h]
        exact ih a c
      · rw [if_neg h]
        obtain ⟨z, u, heq, hdir⟩ := compressRun_head b c rest
        rw [heq]
        refine ⟨?_, ?_⟩
        · rw [hdir]
          exact h
        · rw [← heq]
          exact ih b c

/-- Every vertex kept by contour compression is a direction change. -/
theorem compressContour_changes (l : List (ℤ × ℤ)) :
    DirectionChanges (compressContour l) := by
  match l with
  | [] => trivial
  | [a] => trivial
  | a :: b :: rest => exact compressRun_changes a b rest

/-- C5.  Contour extraction produces exactly one contour per maximal
8-connected foreground region: the contour list is in bijection with the
component list; each component, as a set, is a maximal region; every
foreground position is covered; every maximal region is represented by
exactly one component (so nested holes, which are background, yield no
extra contour); and each stored contour keeps only vertices where the
boundary changes direction. -/
theorem contour_extraction_regions (m : Img) :
    (findContours m).length = (componentsList m).length ∧
      (∀ C ∈ componentsList m, IsRegion m {p | p ∈ C}) ∧
      (∀ p, fgb m p = true → ∃ C ∈ componentsList m, p ∈ C) ∧
      (∀ S, IsRegion m S → ∃ C, C ∈ componentsList m ∧ {p | p ∈ C} = S ∧
        ∀ D ∈ componentsList m, (∃ p, p ∈ D ∧ p ∈ S) → D = C) ∧
      ∀ c ∈ findContours m, DirectionChanges c := by
  obtain ⟨hseed, hdisj⟩ := componentsList_good m
  refine ⟨List.length_map .., ?_, componentsList_cover m, ?_, ?_⟩
  · intro C hC
    obtain ⟨s, hs, rfl⟩ := hseed C hC
    exact component_isRegion m s hs
  · intro S hS
    obtain ⟨p, hp⟩ := hS.1
    have hpfg : fgb m p = true := hS.2.1 p hp
    obtain ⟨C, hC, hpc⟩ := componentsList_cover m p hpfg
    obtain ⟨s, hs, hCs⟩ := hseed C hC
    have hCreg : IsRegion m {x | x ∈ C} := by
      rw [hCs]
      exact component_isRegion m s hs
    have hCeq : {x | x ∈ C} = S := by
      rw [region_eq_connSet m _ hCreg p hpc, region_eq_connSet m S hS p hp]
    refine ⟨C, hC, hCeq, ?_⟩
    intro D hD ⟨x, hxD, hxS⟩
    have hxC : x ∈ C := by
      have : x ∈ {y | y ∈ C} := hCeq ▸ hxS
      exact this
    exact hdisj D hD C hC x hxD hxC
  · intro c hc
    obtain ⟨comp, -, rfl⟩ := List.mem_map.mp hc
    exact compressContour_changes _

/-- Clamped indices stay in range. -/
theorem clampIdx_lt (n : Nat) (hn : 0 < n) (x : ℤ) : clampIdx n x < n := by
  unfold clampIdx
  omega

/-- Border lookups on an all-zero image give zero. -/
theorem borderPix_zero (a : Img) (hz : ∀ i j, i < a.h → j < a.w → a.pix i j = 0)
    (hh : 0 < a.h) (hw : 0 < a.w) (x y : ℤ) : borderPix a x y = 0 :=
  hz _ _ (clampIdx_lt a.h hh x) (clampIdx_lt a.w hw y)

/-- Smoothing an all-zero image yields zero at every in-range pixel. -/
theorem GaussianBlur_zero (a : Img) (k : Nat)
    (hz : ∀ i j, i < a.h → j < a.w → a.pix i j = 0) (i j : Nat)
    (hi : i < a.h) (hj : j < a.w) : (GaussianBlur a k).pix i j = 0 := by
  have hh : 0 < a.h := by omega
  have hw : 0 < a.w := by omega
  simp only [GaussianBlur]
  have hs : ((List.range k).flatMap fun a' =>
      (List.range k).map fun b =>
        (gaussWeights k).getD a' 0 * (gaussWeights k).getD b 0 *
          borderPix a ((i : ℤ) + a' - ((k - 1) / 2 : ℕ)) ((j : ℤ) + b - ((k - 1) / 2 : ℕ))).sum
      = 0 := by
    apply List.sum_eq_zero
    intro x hx
    rw [List.mem_flatMap] at hx
    obtain ⟨a', -, hx⟩ := hx
    rw [List.mem_map] at hx
    obtain ⟨b, -, rfl⟩ := hx
    rw [borderPix_zero a hz hh hw, Nat.mul_zero]
  rw [hs]
  rcases Nat.eq_zero_or_pos ((gaussWeights k).sum ^ 2) with htot | htot
  · rw [htot]
  · exact Nat.div_eq_of_lt (by omega)

/-- Scanning a mask with no foreground position collects nothing. -/
theorem compsAux_no_fg (m : Img) (l : List Pt) (acc : List (List Pt))
    (h : ∀ p, fgb m p = false) : compsAux m l acc = acc := by
  induction l generalizing acc with
  | nil => rfl
  | cons p rest ih =>
      rw [compsAux, if_neg (by rw [h p]; simp), ih]

/-- A mask with no in-range foreground pixel yields no contours. -/
theorem findContours_no_fg (m : Img)
    (h : ∀ i j, i < m.h → j < m.w → m.pix i j ≠ 255) : findContours m = [] := by
  have hfg : ∀ p, fgb m p = false := by
    intro p
    rcases Nat.lt_or_ge p.1 m.h with h1 | h1
    · rcases Nat.lt_or_ge p.2 m.w with h2 | h2
      · simp [fgb, h p.1 p.2 h1 h2]
      · simp [fgb]
        omega
    · simp [fgb]
      omega
  rw [findContours, componentsList, compsAux_no_fg m _ _ hfg]
  rfl

/-- Numerator sign of a non-positive rational. -/
theorem num_nonpos_of_nonpos (c : ℚ) (hc : c ≤ 0) : c.num ≤ 0 := by
  rw [Rat.num_nonpos]
  exact hc

/-- C6 counterexample input: the 3 x 3 all-zero intensity array. -/
def zeroImg3 : Img := ⟨3, 3, fun _ _ => 0⟩

/-- C6 counterexample parameters: valid per the spec (kernel 1, adaptive
mode, block size 3, offset 2, minimum area 0). -/
def adaptiveParams3 : Params := ⟨1, .adaptiveMode, 100, 3, 2, 0⟩

/-- C6 is false as stated: an all-zero array with a valid parameter set
in adaptive mode (offset 2, the value used in the notebook) produces
count 1, not 0 — every pixel exceeds the local mean 0 minus 2, so the
whole mask is foreground. -/
theorem empty_input_counterexample :
    (∀ i j, i < zeroImg3.h → j < zeroImg3.w → zeroImg3.pix i j = 0) ∧
      paramsInvalid zeroImg3 adaptiveParams3 = false ∧
      runPipeline zeroImg3 adaptiveParams3 =
        .ok ⟨1, [⟨[(0, 0), (0, 2), (2, 2), (2, 0), (1, 0)], 4⟩]⟩ ∧
      (1 : Nat) ≠ 0 :=
  ⟨fun _ _ _ _ => rfl, rfl, by rfl, by decide⟩


/-- The block sum over an image that is zero at every in-range pixel is
zero, provided the dimensions are positive. -/
theorem blockSum_zero (a : Img) (bs i j : Nat)
    (hz : ∀ i' j', i' < a.h → j' < a.w → a.pix i' j' = 0)
    (hh : 0 < a.h) (hw : 0 < a.w) : blockSum a bs i j = 0 := by
  apply List.sum_eq_zero
  intro x hx
  rw [List.mem_flatMap] at hx
  obtain ⟨a', -, hx⟩ := hx
  rw [List.mem_map] at hx
  obtain ⟨b, -, rfl⟩ := hx
  exact borderPix_zero a hz hh hw _ _

/-- C6 (amended).  An all-zero intensity array with any valid parameter
set whose thresholding is global, or adaptive with non-positive offset,
produces the empty result (count 0, no blobs); and any all-background
mask yields an empty contour sequence rather than an error.  (The
counterexample forces excluding adaptive mode with positive offset.) -/
theorem empty_input_amended (a : Img) (p : Params)
    (hz : ∀ i j, i < a.h → j < a.w → a.pix i j = 0)
    (hvalid : paramsInvalid a p = false)
    (hmode : p.threshold_mode = .globalMode ∨
      (p.threshold_mode = .adaptiveMode ∧ p.adaptive_offset ≤ 0)) :
    runPipeline a p = .ok ⟨0, []⟩ ∧
      ∀ m : Img, (∀ i j, i < m.h → j < m.w → m.pix i j ≠ 255) →
        findContours m = [] := by
  refine ⟨?_, fun m hm => findContours_no_fg m hm⟩
  have hv := hvalid
  simp only [paramsInvalid, Bool.or_eq_false_iff, decide_eq_false_iff_not, not_lt,
    not_le] at hv
  have hT : 0 ≤ p.threshold_value := hv.1.1.1.2
  have hblur : ∀ i j, i < a.h → j < a.w →
      (GaussianBlur a p.blur_kernel_size).pix i j = 0 :=
    fun i j hi hj => GaussianBlur_zero a p.blur_kernel_size hz i j hi hj
  rcases hmode with hg | ⟨hadp, hoff⟩
  · have hmask : findContours (threshold (GaussianBlur a p.blur_kernel_size)
        p.threshold_value) = [] := by
      apply findContours_no_fg
      intro i j hi hj
      simp only [threshold] at hi hj ⊢
      rw [hblur i j hi hj]
      rw [if_neg (by omega)]
      omega
    show runPipeline a p = _
    unfold runPipeline
    simp only [hvalid, Bool.false_eq_true, if_false, hg]
    rw [hmask]
    rfl
  · have hnum : p.adaptive_offset.num ≤ 0 := num_nonpos_of_nonpos _ hoff
    have hmask : findContours (adaptiveThreshold (GaussianBlur a p.blur_kernel_size)
        p.adaptive_block_size p.adaptive_offset) = [] := by
      apply findContours_no_fg
      intro i j hi hj
      simp only [adaptiveThreshold] at hi hj ⊢
      have hh : 0 < a.h := by omega
      have hw : 0 < a.w := by omega
      rw [hblur i j hi hj,
        blockSum_zero (GaussianBlur a p.blur_kernel_size) p.adaptive_block_size i j
          hblur hh hw]
      rw [if_neg (by
        push_neg
        have h1 : (0 : ℤ) ≤ ((p.adaptive_block_size * p.adaptive_block_size : ℕ) : ℤ) := by
          positivity
        push_cast
        nlinarith [hnum, h1])]
      omega
    show runPipeline a p = _
    unfold runPipeline
    simp only [hvalid, Bool.false_eq_true, if_false, hadp]
    rw [hmask]
    rfl

/-- Witness for the amended C6 at the all-zero array with global
parameters. -/
theorem empty_input_amended_witness :
    runPipeline zeroImg3 ⟨1, .globalMode, 100, 3, 0, 0⟩ = .ok ⟨0, []⟩ ∧
      ∀ m : Img, (∀ i j, i < m.h → j < m.w → m.pix i j ≠ 255) →
        findContours m = [] :=
  empty_input_amended zeroImg3 ⟨1, .globalMode, 100, 3, 0, 0⟩
    (fun _ _ _ _ => rfl) (by rfl)
    (Or.inl rfl)

/-- C1.  The spec scenario: the 10 x 10 array with a filled 4 x 4 square
of value 200 at (3,3)-(6,6), kernel 1, global threshold 100.  With
minimum area 0 the pipeline returns count 1 and a single blob of area 9;
9 is within the boundary-effect tolerance of 16, namely B / 2 + 1 = 7
where B = 12 is the number of boundary pixels of the blob (by the Pick
relation, enclosed pixels = polygon area + B / 2 + 1, the bound is
exact).  With minimum area 20 the blob is filtered out and the count is
0. -/
theorem scenario_square_counts :
    runPipeline scenarioImg (scenarioParams 0) =
        .ok ⟨1, [⟨[(3, 3), (3, 6), (6, 6), (6, 3), (4, 3)], 9⟩]⟩ ∧
      (traceBoundary (threshold (GaussianBlur scenarioImg 1) 100) (3, 3)).length = 12 ∧
      |(9 : ℚ) - 16| ≤ (12 : ℚ) / 2 + 1 ∧
      runPipeline scenarioImg (scenarioParams 20) = .ok ⟨0, []⟩ :=
  ⟨by rfl, by rfl, by norm_num, by rfl⟩

/-- Variable names of the notebook cells involved in the frame claims. -/
inductive Var where
  | b : Var
  | b1 : Var
  | img_contours : Var
  | other : Nat → Var
  deriving DecidableEq

/-- A store of arrays with reference indirection, modelling numpy
variables: an environment from names to references and a heap from
references to arrays.  Plain assignment aliases a reference; .copy()
allocates a fresh one. -/
structure NpState where
  nextRef : Nat
  heap : Nat → Img
  env : Var → Nat

/-- Well-formed store: every live reference is below the allocation
counter, so a fresh allocation never collides with a live array. -/
def NpState.wf (s : NpState) : Prop := ∀ v, s.env v < s.nextRef

/-- dst = src.copy(): allocate a fresh array holding the same pixels and
bind dst to it. -/
def copyVar (dst src : Var) (s : NpState) : NpState :=
  ⟨s.nextRef + 1,
   fun r => if r = s.nextRef then s.heap (s.env src) else s.heap r,
   fun v => if v = dst then s.nextRef else s.env v⟩

/-- v[r1:r2, c1:c2] = val: in-place update of the rectangular region of
the array v refers to (numpy slice assignment). -/
def setRegion (v : Var) (r1 r2 c1 c2 val : Nat) (s : NpState) : NpState :=
  ⟨s.nextRef,
   fun r => if r = s.env v then
     ⟨(s.heap r).h, (s.heap r).w, fun i j =>
       if r1 ≤ i ∧ i < r2 ∧ c1 ≤ j ∧ j < c2 then val else (s.heap r).pix i j⟩
   else s.heap r,
   s.env⟩

/-- Minimum pixel value of an array (numpy min over all positions). -/
def imgMin (g : Img) : Nat := ((allPts g).map fun p => g.pix p.1 p.2).foldl min 255

/-- cv2.drawContours onto the array v refers to: contour points are set
to the given intensity in place (line thickness is irrelevant to the
frame property). -/
def drawContoursOn (v : Var) (cs : List (List (ℤ × ℤ))) (val : Nat)
    (s : NpState) : NpState :=
  ⟨s.nextRef,
   fun r => if r = s.env v then
     ⟨(s.heap r).h, (s.heap r).w, fun i j =>
       if cs.any fun c => c.contains ((i : ℤ), (j : ℤ)) then val
       else (s.heap r).pix i j⟩
   else s.heap r,
   s.env⟩

/-- C10.  The notebook visualisation and masking cells operate only on
explicit copies: after img_contours = b.copy() followed by drawing
contours on img_contours, and after b1 = b.copy() followed by zeroing
the region b1[400:600, 400:600] to b.min(), the array b refers to is
unchanged, pixel for pixel. -/
theorem copy_isolation (s : NpState) (hwf : NpState.wf s)
    (cs : List (List (ℤ × ℤ))) :
    ((drawContoursOn .img_contours cs 255 (copyVar .img_contours .b s)).heap
        ((drawContoursOn .img_contours cs 255 (copyVar .img_contours .b s)).env .b) =
      s.heap (s.env .b)) ∧
    ((setRegion .b1 400 600 400 600 (imgMin (s.heap (s.env .b)))
          (copyVar .b1 .b s)).heap
        ((setRegion .b1 400 600 400 600 (imgMin (s.heap (s.env .b)))
          (copyVar .b1 .b s)).env .b) =
      s.heap (s.env .b)) := by
  have hbc : (Var.b : Var) ≠ Var.img_contours := by decide
  have hb1 : (Var.b : Var) ≠ Var.b1 := by decide
  have hne : s.env .b ≠ s.nextRef := Nat.ne_of_lt (hwf .b)
  constructor
  · simp [drawContoursOn, copyVar, hbc, hne]
  · simp [setRegion, copyVar, hb1, hne]

/-- Witness for C10 at a concrete well-formed store. -/
theorem copy_isolation_witness :
    NpState.wf ⟨1, fun _ => zeroImg3, fun _ => 0⟩ ∧
      (((drawContoursOn .img_contours [] 255
            (copyVar .img_contours .b ⟨1, fun _ => zeroImg3, fun _ => 0⟩)).heap
          ((drawContoursOn .img_contours [] 255
            (copyVar .img_contours .b ⟨1, fun _ => zeroImg3, fun _ => 0⟩)).env .b) =
        (⟨1, fun _ => zeroImg3, fun _ => 0⟩ : NpState).heap
          ((⟨1, fun _ => zeroImg3, fun _ => 0⟩ : NpState).env .b)) ∧
      ((setRegion .b1 400 600 400 600
            (imgMin ((⟨1, fun _ => zeroImg3, fun _ => 0⟩ : NpState).heap
              ((⟨1, fun _ => zeroImg3, fun _ => 0⟩ : NpState).env .b)))
            (copyVar .b1 .b ⟨1, fun _ => zeroImg3, fun _ => 0⟩)).heap
          ((setRegion .b1 400 600 400 600
            (imgMin ((⟨1, fun _ => zeroImg3, fun _ => 0⟩ : NpState).heap
              ((⟨1, fun _ => zeroImg3, fun _ => 0⟩ : NpState).env .b)))
            (copyVar .b1 .b ⟨1, fun _ => zeroImg3, fun _ => 0⟩)).env .b) =
        (⟨1, fun _ => zeroImg3, fun _ => 0⟩ : NpState).heap
          ((⟨1, fun _ => zeroImg3, fun _ => 0⟩ : NpState).env .b))) :=
  ⟨fun _ => Nat.one_pos,
    copy_isolation ⟨1, fun _ => zeroImg3, fun _ => 0⟩ (fun _ => Nat.one_pos) []⟩
